import Mathlib

/-!
Verification of typst-mutilate (`src/main.rs`), a tool that replaces every
word of a typst document with random garbage while preserving the document's
shape.  The development shallowly embeds the program: text spans are lists of
characters, the pseudo-random generator is the stream of values it will
produce, and the external collaborators (the typst parser, the hypher
hyphenator, the `ast::Raw::lang` accessor and the Unicode character classes
of the Rust standard library) are modelled as explicit parameters or as
executable character-range tables.
-/

namespace TypstMutilate

/-- A word or text span, as the sequence of Unicode characters of a Rust
`&str` (its `chars()` iterator). -/
abbrev Word := List Char

/-- UTF-8 byte length of a span (Rust `str::len`). -/
def byteLen (w : Word) : Nat := (w.map Char.utf8Size).sum

/-- The pseudo-random generator (`Xoshiro256PlusPlus` in the source),
modelled as the stream of bounded draws it will produce: applying the
stream to `n` yields the `n`-th value the generator hands out. -/
def Rng : Type := Nat → Nat

/-- Draw one value from the generator, advancing its state. -/
def rngNext (r : Rng) : Nat × Rng := (r 0, fun n => r (n + 1))

/-- Rust `SliceRandom::choose`: `None` on an empty slice, otherwise an
index drawn uniformly from `0..len` (modelled as the next stream value
reduced modulo the length).  The generator is only advanced when the
slice is non-empty, matching `choose`'s implementation. -/
def chooseRand (l : List α) (r : Rng) : Option α × Rng :=
  match l with
  | [] => (none, r)
  | x :: xs =>
    let (v, r') := rngNext r
    (some ((x :: xs).get ⟨v % (x :: xs).length, Nat.mod_lt _ (Nat.succ_pos _)⟩), r')

/-- `const MINIMUM_WORD_COUNT: usize = 16` — the minimum number of words
that have to be available in a list in order to choose an item. -/
def MINIMUM_WORD_COUNT : Nat := 16

/-- `const CHARSET_TEXT: &[char]` — the 52 upper- and lowercase ASCII
letters used by the synthetic fallback. -/
def CHARSET_TEXT : List Char :=
  ['a', 'b', 'c', 'd', 'e', 'f', 'g', 'h', 'i', 'j', 'k', 'l', 'm', 'n', 'o',
   'p', 'q', 'r', 's', 't', 'u', 'v', 'w', 'x', 'y', 'z', 'A', 'B', 'C', 'D',
   'E', 'F', 'G', 'H', 'I', 'J', 'K', 'L', 'M', 'N', 'O', 'P', 'Q', 'R', 'S',
   'T', 'U', 'V', 'W', 'X', 'Y', 'Z']

/-- `const CHARSET_DIGITS: &[char]` — the ten ASCII decimal digits. -/
def CHARSET_DIGITS : List Char :=
  ['0', '1', '2', '3', '4', '5', '6', '7', '8', '9']

/-- Closed range test on a character's code point. -/
def inRange (ch : Char) (lo hi : Nat) : Bool :=
  decide (lo ≤ ch.toNat ∧ ch.toNat ≤ hi)

/-- Models Rust `char::is_numeric` (Unicode general categories Nd, Nl, No),
restricted to an executable table of well-known numeric ranges: ASCII
digits, the Latin-1 superscripts and vulgar fractions, Arabic-Indic and
Extended Arabic-Indic digits, Bengali and Devanagari digits, superscript
and subscript digits, Roman numerals, circled digits and fullwidth digits.
Characters outside the listed ranges are treated as non-numeric; every
witness and counterexample below stays inside the table, where the model
agrees with the Unicode property. -/
def isNumericU (ch : Char) : Bool :=
  ch.isDigit
  || inRange ch 0xB2 0xB3 || inRange ch 0xB9 0xB9 || inRange ch 0xBC 0xBE
  || inRange ch 0x660 0x669 || inRange ch 0x6F0 0x6F9
  || inRange ch 0x9E6 0x9EF || inRange ch 0x966 0x96F
  || inRange ch 0x2070 0x2070 || inRange ch 0x2074 0x2079
  || inRange ch 0x2080 0x2089
  || inRange ch 0x2160 0x2182
  || inRange ch 0x2460 0x2473
  || inRange ch 0xFF10 0xFF19

/-- Models Rust `char::is_alphabetic` (the Unicode `Alphabetic` property),
restricted to an executable table of well-known alphabetic ranges: ASCII
letters, the Latin-1 letters, Latin Extended-A, Greek, basic Cyrillic and
the unified CJK ideographs.  Characters outside the listed ranges are
treated as non-alphabetic. -/
def isAlphabeticU (ch : Char) : Bool :=
  ch.isAlpha
  || inRange ch 0xC0 0xD6 || inRange ch 0xD8 0xF6 || inRange ch 0xF8 0xFF
  || inRange ch 0xAA 0xAA || inRange ch 0xB5 0xB5 || inRange ch 0xBA 0xBA
  || inRange ch 0x100 0x17F
  || inRange ch 0x391 0x3A1 || inRange ch 0x3A3 0x3C9
  || inRange ch 0x410 0x44F
  || inRange ch 0x4E00 0x9FFF

/-- Models Rust `char::is_alphanumeric`, which holds exactly when the
character is alphabetic or numeric. -/
def isAlphanumericU (ch : Char) : Bool := isAlphabeticU ch || isNumericU ch

/-- The tokenizer's separator test: the closure
`let split = |c: char| !c.is_alphanumeric()` in `mutilate_text`. -/
def isSep (ch : Char) : Bool := !(isAlphanumericU ch)

/-- One bucket map of the wordlist index (the source's
`BTreeMap<K, Vec<EcoString>>`), modelled as an association list with
unique keys; the tree-map's internal ordering is irrelevant to lookups. -/
def bmGet [DecidableEq κ] (m : List (κ × List α)) (k : κ) : Option (List α) :=
  (m.find? (fun p => decide (p.1 = k))).map (fun p => p.2)

/-- `map.entry(k).or_default().push(v)`: append `v` at the end of the
bucket for `k`, creating the bucket if it is absent. -/
def bmPush [DecidableEq κ] (m : List (κ × List α)) (k : κ) (v : α) :
    List (κ × List α) :=
  match m with
  | [] => [(k, [v])]
  | p :: rest =>
    if p.1 = k then (p.1, p.2 ++ [v]) :: rest else p :: bmPush rest k v

/-- The mutation context (`struct Context`).  The `language` field of the
source is folded into `hyph`, which models `hypher::hyphenate(word,
language)` with the active language already applied: it returns the list
of syllables (each a character sequence) of a word.  The random generator
is the only field the program ever mutates. -/
structure Context where
  rng : Rng
  aggressive : Bool
  hyph : Word → List Word
  by_length : List (Nat × List Word)
  by_hyphenation : List (List Nat × List Word)

/-- The hyphenation signature of a word: the syllable character counts,
each saturated to 255 (`.chars().count().try_into().unwrap_or(u8::MAX)`). -/
def hyphSignature (hyph : Word → List Word) (word : Word) : List Nat :=
  (hyph word).map (fun syllable => min syllable.length 255)

/-- The wordlist index built by `build_context`'s reading loop: one pass
per (already newline-trimmed) line, pushing the word into its by-length
bucket and then into its by-signature bucket. -/
def buildIndex (hyph : Word → List Word) (wordlist : List Word) :
    List (Nat × List Word) × List (List Nat × List Word) :=
  wordlist.foldl
    (fun acc word =>
      (bmPush acc.1 word.length word,
       bmPush acc.2 (hyphSignature hyph word) word))
    ([], [])

/-- `build_context`: the context assembled from the seeded generator, the
aggressive flag, the hyphenator for the active language and the wordlist
(the list of trimmed lines of the word-source file; an absent word source
is the empty list, leaving both indices empty). -/
def build_context (rng : Rng) (aggressive : Bool) (hyph : Word → List Word)
    (wordlist : List Word) : Context :=
  { rng := rng
    aggressive := aggressive
    hyph := hyph
    by_length := (buildIndex hyph wordlist).1
    by_hyphenation := (buildIndex hyph wordlist).2 }

/-- The synthetic fallback loop of `mutilate_word`: draw `n` uniformly
random letters from `CHARSET_TEXT`.  The charset is non-empty, so the
`None` branch (the source's `.unwrap()` panic) is unreachable. -/
def synth : Nat → Rng → Word × Rng
  | 0, r => ([], r)
  | n + 1, r =>
    match chooseRand CHARSET_TEXT r with
    | (some ch, r') =>
      let (rest, r'') := synth n r'
      (ch :: rest, r'')
    | (none, r') =>
      let (rest, r'') := synth n r'
      (rest, r'')

/-- One wordlist-bucket attempt of `mutilate_word`: succeeds only when the
bucket exists, holds at least `MINIMUM_WORD_COUNT` words, and `choose`
returns a word (which it does whenever the bucket is non-empty). -/
def bucketDraw : Option (List Word) → Rng → Option (Word × Rng)
  | none, _ => none
  | some words, r =>
    if MINIMUM_WORD_COUNT ≤ words.length then
      match chooseRand words r with
      | (some w, r') => some (w, r')
      | (none, _) => none
    else none

/-- The tail of `mutilate_word` after the by-signature attempt failed:
try the by-length bucket, otherwise synthesize `word.length` letters. -/
def lengthFallback (word : Word) (c : Context) : Word × Context :=
  match bucketDraw (bmGet c.by_length word.length) c.rng with
  | some (w, r') => (w, { c with rng := r' })
  | none =>
    let (out, r') := synth word.length c.rng
    (out, { c with rng := r' })

/-- `mutilate_word`: all-numeric words collapse to one random decimal
digit; otherwise try the by-signature bucket, then the by-length bucket,
then the synthetic generator.  The digit branch's `None` case (the
source's `.unwrap()`) is unreachable since `CHARSET_DIGITS` is
non-empty. -/
def mutilate_word (word : Word) (c : Context) : Word × Context :=
  if word.all isNumericU then
    match chooseRand CHARSET_DIGITS c.rng with
    | (some d, r') => ([d], { c with rng := r' })
    | (none, r') => ([], { c with rng := r' })
  else
    match bucketDraw (bmGet c.by_hyphenation (hyphSignature c.hyph word)) c.rng with
    | some (w, r') => (w, { c with rng := r' })
    | none => lengthFallback word c

/-- Fuel-indexed body of `mutilate_text`.  One unit of fuel is spent per
loop iteration; every iteration consumes at least the word's characters,
so `text.length` fuel always suffices (`mutilateTextGo_congr` below).
Each step mirrors the source: `ws` is the echoed separator prefix
(`whitespace`), the following maximal alphanumeric run is the word passed
to `mutilate_word`, and when no word remains the current `remaining`
span is echoed and the loop stops. -/
def mutilateTextGo : Nat → Word → Context → Word × Context
  | 0, text, c => (text, c)
  | fuel + 1, text, c =>
    let ws := text.takeWhile isSep
    let rest := text.dropWhile isSep
    match rest.takeWhile isAlphanumericU with
    | [] => (text, c)
    | w :: tl =>
      let (mw, c') := mutilate_word (w :: tl) c
      let (out, c'') := mutilateTextGo fuel (rest.drop (w :: tl).length) c'
      (ws ++ mw ++ out, c'')

/-- `mutilate_text`: tokenize a span into separator/word runs, echo the
separators and replace each word by `mutilate_word`'s output. -/
def mutilate_text (text : Word) (c : Context) : Word × Context :=
  mutilateTextGo text.length text c

/-- Fuel-indexed list of the separator runs of a span, in order: the run
before the first word, between consecutive words, and after the last
word (runs may be empty at the span's ends). -/
def sepRunsGo : Nat → Word → List Word
  | 0, text => [text]
  | fuel + 1, text =>
    let ws := text.takeWhile isSep
    let rest := text.dropWhile isSep
    match rest.takeWhile isAlphanumericU with
    | [] => [ws]
    | w :: tl => ws :: sepRunsGo fuel (rest.drop (w :: tl).length)

/-- The separator runs of a span, in order. -/
def sepRuns (text : Word) : List Word := sepRunsGo text.length text

/-- Fuel-indexed list of the non-empty maximal separator runs of a span
together with the UTF-8 byte offset at which each run starts. -/
def sepRunsPosGo : Nat → Nat → Word → List (Nat × Word)
  | 0, _, _ => []
  | fuel + 1, pos, text =>
    let ws := text.takeWhile isSep
    let rest := text.dropWhile isSep
    let entry := if ws.isEmpty then ([] : List (Nat × Word)) else [(pos, ws)]
    match rest.takeWhile isAlphanumericU with
    | [] => entry
    | w :: tl =>
      entry ++ sepRunsPosGo fuel (pos + byteLen ws + byteLen (w :: tl))
        (rest.drop (w :: tl).length)

/-- The non-empty maximal separator runs of a span, each with the UTF-8
byte offset at which it starts. -/
def sepRunsPos (text : Word) : List (Nat × Word) :=
  sepRunsPosGo text.length 0 text

/-- The node kinds `mutilate` distinguishes.  The typst parser produces
many more kinds; all of them reach the source's catch-all arms, whose
behaviour depends only on whether the node has children, so they are
represented by the single constructor `other`. -/
inductive SyntaxKind where
  | text
  | lineComment
  | blockComment
  | str
  | raw
  | link
  | moduleInclude
  | moduleImport
  | other
  deriving DecidableEq

/-- A node of the parsed document tree (`typst_syntax::SyntaxNode`): a
kind, the text returned by `SyntaxNode::text()` (the node's own text for
leaves; the parser returns an empty string for inner nodes), and the
children in document order. -/
inductive SyntaxNode where
  | node (kind : SyntaxKind) (text : Word) (children : List SyntaxNode)

/-- The node's kind. -/
def SyntaxNode.kind : SyntaxNode → SyntaxKind
  | .node k _ _ => k

/-- The node's own text. -/
def SyntaxNode.text : SyntaxNode → Word
  | .node _ t _ => t

/-- The node's children. -/
def SyntaxNode.children : SyntaxNode → List SyntaxNode
  | .node _ _ cs => cs

mutual

/-- `write_node`: echo a node verbatim — recurse into the children when
there are any, otherwise write the node's text. -/
def write_node : SyntaxNode → Word
  | .node _ t [] => t
  | .node _ _ (n :: rest) => writeNodeList (n :: rest)

/-- The loop of `write_node` over a child list. -/
def writeNodeList : List SyntaxNode → Word
  | [] => []
  | n :: rest => write_node n ++ writeNodeList rest

end

/-- Split a span at UTF-8 byte offset `n`: `none` when `n` is past the
end of the span or falls inside the encoding of a character (the two
conditions under which a Rust byte-index slice panics). -/
def byteSplitAt : Nat → Word → Option (Word × Word)
  | 0, text => some ([], text)
  | _ + 1, [] => none
  | n + 1, ch :: rest =>
    if ch.utf8Size ≤ n + 1 then
      (byteSplitAt (n + 1 - ch.utf8Size) rest).map (fun p => (ch :: p.1, p.2))
    else none

/-- The byte slice `&text[a..b]`: `none` exactly when the Rust slice
would panic (`a > b`, an index out of bounds, or an index that is not a
character boundary). -/
def sliceBytes (a b : Nat) (text : Word) : Option Word :=
  if b < a then none
  else
    match byteSplitAt a text with
    | none => none
    | some p => (byteSplitAt (b - a) p.2).map (fun q => q.1)

/-- The byte slice `&text[n..]`. -/
def sliceFrom (n : Nat) (text : Word) : Option Word :=
  (byteSplitAt n text).map (fun p => p.2)

/-- The backtick character delimiting typst raw nodes. -/
def backtick : Char := Char.ofNat 96

/-- `str::strip_suffix`. -/
def removeTrail (l suf : Word) : Option Word :=
  if l.drop (l.length - suf.length) = suf then
    some (l.take (l.length - suf.length))
  else none

/-- `str::strip_prefix`. -/
def removeLead (l pre : Word) : Option Word :=
  if l.take pre.length = pre then some (l.drop pre.length) else none

mutual

/-- `mutilate`: the recursive tree walk.  `rawLang` models the external
`ast::Raw::lang` accessor as a function of the raw node's text (the
typst ast derives the language tag from the node).  The result is `none`
exactly when the source would panic (a failing byte slice or a failing
`unwrap` on `strip_suffix`/`strip_prefix`); no output reaches the
process boundary in that case. -/
def mutilate (rawLang : Word → Option Word) :
    SyntaxNode → Context → Option (Word × Context)
  | .node k text children, c =>
    match k with
    | .text => some (mutilate_text text c)
    | .lineComment =>
      match sliceFrom 2 text with
      | none => none
      | some content =>
        let (o, c') := mutilate_text content c
        some (['/', '/'] ++ o, c')
    | .blockComment =>
      match sliceBytes 2 (byteLen text - 2) text with
      | none => none
      | some content =>
        let (o, c') := mutilate_text content c
        some (['/', '*'] ++ o ++ ['*', '/'], c')
    | .str =>
      if c.aggressive then
        match sliceBytes 1 (byteLen text - 1) text with
        | none => none
        | some content =>
          let (o, c') := mutilate_text content c
          some (['"'] ++ o ++ ['"'], c')
      else
        -- guard failed: the node falls to the source's catch-all arms
        match children with
        | [] => some (text, c)
        | n :: rest => mutilateList rawLang (n :: rest) c
    | .raw =>
      let backticks := text.takeWhile (fun ch => ch = backtick)
      let trimmed := text.dropWhile (fun ch => ch = backtick)
      match removeTrail trimmed backticks with
      | none => none
      | some body =>
        match rawLang text with
        | some lang =>
          match removeLead body lang with
          | none => none
          | some body2 =>
            let (o, c') := mutilate_text body2 c
            some (backticks ++ lang ++ o ++ backticks, c')
        | none =>
          let (o, c') := mutilate_text body c
          some (backticks ++ o ++ backticks, c')
    | .link => some (mutilate_text text c)
    | .moduleInclude => some (write_node (.node k text children), c)
    | .moduleImport => some (write_node (.node k text children), c)
    | .other =>
      -- the source's catch-all arms: recurse into the children when there
      -- are any, otherwise echo the leaf's text via write_node
      match children with
      | [] => some (text, c)
      | n :: rest => mutilateList rawLang (n :: rest) c

/-- The `for child in syntax.children()` loop of `mutilate`, threading
the context through the children in document order. -/
def mutilateList (rawLang : Word → Option Word) :
    List SyntaxNode → Context → Option (Word × Context)
  | [], c => some ([], c)
  | n :: rest, c =>
    match mutilate rawLang n c with
    | none => none
    | some (o, c') =>
      match mutilateList rawLang rest c' with
      | none => none
      | some (o2, c'') => some (o ++ o2, c'')

end

/-- The output-producing part of `main`: when the parser reported any
diagnostics the program prints them to stderr and returns without
emitting a single output byte; otherwise the mutilated document is
written (to stdout or in place).  `none` means no output bytes are
produced. -/
def runMain (rawLang : Word → Option Word) (doc : SyntaxNode)
    (errors : List Word) (c : Context) : Option Word :=
  if errors.isEmpty then (mutilate rawLang doc c).map (fun p => p.1)
  else none

mutual

/-- The texts of a node's leaves, in document order. -/
def leaves : SyntaxNode → List Word
  | .node _ t [] => [t]
  | .node _ _ (n :: rest) => leavesList (n :: rest)

/-- The leaf texts of a list of nodes, in document order. -/
def leavesList : List SyntaxNode → List Word
  | [] => []
  | n :: rest => leaves n ++ leavesList rest

end

/-- A wordlist whose every bucket entry is a non-empty, fully
alphanumeric word.  Real wordlists of natural-language words satisfy
this; it is what makes a drawn replacement a single word run of the
output. -/
def CleanBuckets (c : Context) : Prop :=
  (∀ p ∈ c.by_hyphenation, ∀ w ∈ p.2, w ≠ [] ∧ w.all isAlphanumericU = true) ∧
  (∀ p ∈ c.by_length, ∀ w ∈ p.2, w ≠ [] ∧ w.all isAlphanumericU = true)

/-- The shape a raw node's text is assumed to have: it decomposes as the
maximal leading backtick run, an interior that does not itself start
with a backtick (and is non-empty whenever the run is), the same run
again; and any language tag reported for the node immediately follows
the opening run, i.e. is a prefix of the interior. -/
def RawShape (rawLang : Word → Option Word) (text : Word) : Prop :=
  ∃ mid,
    text = text.takeWhile (fun ch => ch = backtick) ++ mid ++
      text.takeWhile (fun ch => ch = backtick) ∧
    mid.head? ≠ some backtick ∧
    (text.takeWhile (fun ch => ch = backtick) ≠ [] → mid ≠ []) ∧
    ∀ lang, rawLang text = some lang → ∃ rest, mid = lang ++ rest

/-- The per-node preconditions of claim C10: each node kind's text has
the shape the kind implies.  Kinds without slicing have no condition. -/
def ShapeOk (rawLang : Word → Option Word) (n : SyntaxNode) : Prop :=
  (n.kind = .lineComment → ∃ rest, n.text = '/' :: '/' :: rest) ∧
  (n.kind = .blockComment → ∃ mid, n.text = '/' :: '*' :: (mid ++ ['*', '/'])) ∧
  (n.kind = .str → ∃ mid, n.text = '"' :: (mid ++ ['"'])) ∧
  (n.kind = .raw → RawShape rawLang n.text)

mutual

/-- `ShapeOk` for a node and all of its descendants. -/
def AllShapeOk (rawLang : Word → Option Word) : SyntaxNode → Prop
  | .node k t cs => ShapeOk rawLang (.node k t cs) ∧ AllShapeOkList rawLang cs

/-- `AllShapeOk` for every node of a list. -/
def AllShapeOkList (rawLang : Word → Option Word) : List SyntaxNode → Prop
  | [] => True
  | n :: rest => AllShapeOk rawLang n ∧ AllShapeOkList rawLang rest

end

mutual

/-- Number of nodes of a tree, the induction measure for the walk. -/
def nodeSize : SyntaxNode → Nat
  | .node _ _ cs => forestSize cs + 1

/-- Number of nodes of a forest. -/
def forestSize : List SyntaxNode → Nat
  | [] => 0
  | n :: rest => nodeSize n + forestSize rest + 1

end

/-! Concrete fixtures used by the witnesses and counterexamples. -/

/-- A fixed generator stream: every draw yields 0 (a legal, if boring,
seeded generator state). -/
def rng0 : Rng := fun _ => 0

/-- A degenerate hyphenator: every word is one syllable.  (Any function
of the right type models a language; claims about hyphenation are proved
for all hyphenators, this one only feeds the witnesses.) -/
def hyph0 : Word → List Word := fun w => [w]

/-- A raw-language accessor reporting no language tag. -/
def noLang : Word → Option Word := fun _ => none

/-- A context with an empty wordlist (no `-w` option). -/
def c0 : Context :=
  { rng := rng0
    aggressive := false
    hyph := hyph0
    by_length := []
    by_hyphenation := [] }

/-- A context whose by-signature index has one bucket with a single
word — below the drawing threshold. -/
def cSmall : Context :=
  { rng := rng0
    aggressive := false
    hyph := hyph0
    by_length := []
    by_hyphenation := [([1], [['q']])] }

/-- Sixteen two-letter words; under `hyph0` they all share the signature
`[2]`, so their by-signature bucket reaches the drawing threshold. -/
def wl16 : List Word := (List.range 16).map (fun i => ['w', Char.ofNat (97 + i)])

/-- The context built from the sixteen-word list. -/
def c16 : Context := build_context rng0 false hyph0 wl16

/-! General list facts used throughout. -/

theorem length_dropWhile_le (p : α → Bool) (l : List α) :
    (l.dropWhile p).length ≤ l.length := by
  induction l with
  | nil => simp
  | cons a t ih =>
    by_cases h : p a
    · simp only [List.dropWhile_cons, h, if_true, List.length_cons]
      omega
    · simp [List.dropWhile_cons, h]

theorem takeWhile_append_of_all (p : α → Bool) (l t : List α)
    (h : ∀ x ∈ l, p x = true) : (l ++ t).takeWhile p = l ++ t.takeWhile p := by
  induction l with
  | nil => simp
  | cons a r ih =>
    simp [List.takeWhile_cons, h a (by simp)]
    exact ih (fun x hx => h x (by simp [hx]))

theorem dropWhile_append_of_all (p : α → Bool) (l t : List α)
    (h : ∀ x ∈ l, p x = true) : (l ++ t).dropWhile p = t.dropWhile p := by
  induction l with
  | nil => simp
  | cons a r ih =>
    simp only [List.cons_append, List.dropWhile_cons, h a (by simp), if_true]
    exact ih (fun x hx => h x (by simp [hx]))

theorem takeWhile_eq_nil_of_head (p : α → Bool) (l : List α)
    (h : ∀ a, l.head? = some a → p a = false) : l.takeWhile p = [] := by
  cases l with
  | nil => rfl
  | cons a t => simp [List.takeWhile_cons, h a rfl]

/-! Facts about the generator draw. -/

theorem chooseRand_ne_nil (l : List α) (r : Rng) (h : l ≠ []) :
    chooseRand l r =
      (some (l.get ⟨r 0 % l.length, Nat.mod_lt _ (List.length_pos.mpr h)⟩),
       fun n => r (n + 1)) := by
  match l with
  | [] => exact absurd rfl h
  | x :: xs => rfl

theorem chooseRand_mem (l : List α) (r : Rng) (a : α) (r' : Rng)
    (h : chooseRand l r = (some a, r')) : a ∈ l := by
  match l with
  | [] => simp [chooseRand] at h
  | x :: xs =>
    simp only [chooseRand, rngNext, Prod.mk.injEq, Option.some.injEq] at h
    rw [← h.1]
    exact List.get_mem _ _ _

/-! Facts about the synthetic fallback. -/

theorem synth_length (n : Nat) (r : Rng) : (synth n r).1.length = n := by
  induction n generalizing r with
  | zero => rfl
  | succ n ih =>
    rw [synth, chooseRand_ne_nil _ _ (by decide)]
    simp [ih]

theorem synth_mem (n : Nat) (r : Rng) :
    ∀ ch ∈ (synth n r).1, ch ∈ CHARSET_TEXT := by
  induction n generalizing r with
  | zero => simp [synth]
  | succ n ih =>
    rw [synth, chooseRand_ne_nil _ _ (by decide)]
    simp only []
    intro ch hch
    rcases List.mem_cons.mp hch with h | h
    · rw [h]; exact List.get_mem _ _ _
    · exact ih _ ch h

/-! Facts about the bucket maps. -/

theorem bmGet_mem [DecidableEq κ] (m : List (κ × List α)) (k : κ) (ws : List α)
    (h : bmGet m k = some ws) : (k, ws) ∈ m := by
  unfold bmGet at h
  cases hf : m.find? (fun p => decide (p.1 = k)) with
  | none => rw [hf] at h; simp at h
  | some p =>
    rw [hf] at h
    simp only [Option.map_some', Option.some.injEq] at h
    have hp := List.find?_some hf
    simp only [decide_eq_true_eq] at hp
    have hm : p ∈ m := List.mem_of_find?_eq_some hf
    obtain ⟨k', ws'⟩ := p
    have h1 : k' = k := hp
    subst h1
    rw [← h]
    exact hm

/-! Facts about a single bucket attempt. -/

theorem bucketDraw_small (ws : List Word) (r : Rng)
    (h : ws.length < MINIMUM_WORD_COUNT) : bucketDraw (some ws) r = none := by
  rw [bucketDraw, if_neg (Nat.not_le.mpr h)]

theorem bucketDraw_some (b : Option (List Word)) (r : Rng) (w : Word) (r' : Rng)
    (h : bucketDraw b r = some (w, r')) :
    ∃ ws, b = some ws ∧ MINIMUM_WORD_COUNT ≤ ws.length ∧ w ∈ ws := by
  cases b with
  | none => simp [bucketDraw] at h
  | some ws =>
    refine ⟨ws, rfl, ?_⟩
    rw [bucketDraw] at h
    by_cases hle : MINIMUM_WORD_COUNT ≤ ws.length
    · rw [if_pos hle] at h
      refine ⟨hle, ?_⟩
      cases hc : chooseRand ws r with
      | mk o r2 =>
        rw [hc] at h
        cases o with
        | none => simp at h
        | some a =>
          simp only [Option.some.injEq, Prod.mk.injEq] at h
          rw [← h.1]
          exact chooseRand_mem ws r a r2 hc
    · rw [if_neg hle] at h
      simp at h

theorem bucketDraw_of_le (ws : List Word) (r : Rng)
    (h : MINIMUM_WORD_COUNT ≤ ws.length) :
    ∃ w r', bucketDraw (some ws) r = some (w, r') ∧ w ∈ ws := by
  have hne : ws ≠ [] := by
    intro e
    rw [e] at h
    simp [MINIMUM_WORD_COUNT] at h
  rw [bucketDraw, if_pos h, chooseRand_ne_nil _ _ hne]
  exact ⟨_, _, rfl, List.get_mem _ _ _⟩

/-! Structure of `mutilate_word`. -/

theorem mutilate_word_numeric (word : Word) (c : Context)
    (h : word.all isNumericU = true) :
    mutilate_word word c =
      ([CHARSET_DIGITS.get
          ⟨c.rng 0 % CHARSET_DIGITS.length, Nat.mod_lt _ (by decide)⟩],
       { c with rng := fun n => c.rng (n + 1) }) := by
  unfold mutilate_word
  rw [h, chooseRand_ne_nil _ _ (by decide)]
  rfl

theorem mutilate_word_sig (word : Word) (c : Context)
    (h : word.all isNumericU = false) :
    mutilate_word word c =
      match bucketDraw (bmGet c.by_hyphenation (hyphSignature c.hyph word)) c.rng with
      | some (w, r') => (w, { c with rng := r' })
      | none => lengthFallback word c := by
  unfold mutilate_word
  rw [h]
  rfl

theorem mutilate_word_fields (word : Word) (c : Context) :
    (mutilate_word word c).2.aggressive = c.aggressive ∧
    (mutilate_word word c).2.hyph = c.hyph ∧
    (mutilate_word word c).2.by_length = c.by_length ∧
    (mutilate_word word c).2.by_hyphenation = c.by_hyphenation := by
  unfold mutilate_word lengthFallback
  cases hsy : synth word.length c.rng with
  | mk o r2 =>
    split
    · split <;> simp
    · split
      · simp
      · split
        · simp
        · simp

theorem mutilate_word_clean (word : Word) (c : Context) (hc : CleanBuckets c)
    (hw : word ≠ []) :
    (mutilate_word word c).1 ≠ [] ∧
    (mutilate_word word c).1.all isAlphanumericU = true := by
  by_cases h : word.all isNumericU
  · rw [mutilate_word_numeric word c h]
    refine ⟨by simp, ?_⟩
    have hd : ∀ d ∈ CHARSET_DIGITS, isAlphanumericU d = true := by decide
    simp only [List.all_eq_true, List.mem_singleton]
    intro x hx
    rw [hx]
    exact hd _ (List.get_mem _ _ _)
  · rw [mutilate_word_sig word c (by simpa using h)]
    cases hb : bucketDraw (bmGet c.by_hyphenation (hyphSignature c.hyph word)) c.rng with
    | some p =>
      obtain ⟨w2, r2⟩ := p
      obtain ⟨ws, hws, _, hmem⟩ := bucketDraw_some _ _ _ _ hb
      have hpair := bmGet_mem _ _ _ hws
      exact hc.1 _ hpair w2 hmem
    | none =>
      unfold lengthFallback
      cases hb2 : bucketDraw (bmGet c.by_length word.length) c.rng with
      | some p =>
        obtain ⟨w2, r2⟩ := p
        obtain ⟨ws, hws, _, hmem⟩ := bucketDraw_some _ _ _ _ hb2
        have hpair := bmGet_mem _ _ _ hws
        exact hc.2 _ hpair w2 hmem
      | none =>
        constructor
        · intro e
          have := synth_length word.length c.rng
          rw [e] at this
          simp at this
          exact hw (List.length_eq_zero.mp this.symm)
        · have hs := synth_mem word.length c.rng
          have ht : ∀ ch ∈ CHARSET_TEXT, isAlphanumericU ch = true := by decide
          simp only [List.all_eq_true]
          intro x hx
          exact ht x (hs x hx)

theorem isNumericU_of_isDigit (ch : Char) (h : ch.isDigit = true) :
    isNumericU ch = true := by
  unfold isNumericU
  rw [h]
  rfl

/-- C2: Digit collapse — for every word whose characters are all decimal
digits, `mutilate_word` emits exactly one decimal digit character (drawn
from `CHARSET_DIGITS` by the generator), regardless of the word's
length; the generator advances by one draw and nothing else changes. -/
theorem claim_C2 (word : Word) (c : Context)
    (h : word.all Char.isDigit = true) :
    ∃ d, d ∈ CHARSET_DIGITS ∧
      mutilate_word word c = ([d], { c with rng := fun n => c.rng (n + 1) }) := by
  have hnum : word.all isNumericU = true := by
    simp only [List.all_eq_true] at h ⊢
    exact fun x hx => isNumericU_of_isDigit x (h x hx)
  exact ⟨_, List.get_mem _ _ _, mutilate_word_numeric word c hnum⟩

theorem claim_C2_witness :
    ∃ d, d ∈ CHARSET_DIGITS ∧
      mutilate_word ['4', '2'] c0 =
        ([d], { c0 with rng := fun n => c0.rng (n + 1) }) :=
  claim_C2 ['4', '2'] c0 (by decide)

/-- C9: The digit branch fires for every word all of whose characters
satisfy the Unicode `is_numeric` test (Roman numerals, non-ASCII decimal
digits, superscript digits, ...), not only ASCII digits: every such word
becomes a single ASCII decimal digit, and the result — given fully by
this equation — never consults the signature bucket, the length bucket
or the synthetic generator. -/
theorem claim_C9 (word : Word) (c : Context)
    (h : word.all isNumericU = true) :
    ∃ d, d ∈ CHARSET_DIGITS ∧
      mutilate_word word c = ([d], { c with rng := fun n => c.rng (n + 1) }) :=
  ⟨_, List.get_mem _ _ _, mutilate_word_numeric word c h⟩

theorem claim_C9_witness :
    ∃ d, d ∈ CHARSET_DIGITS ∧
      mutilate_word ['Ⅻ', '²'] c0 =
        ([d], { c0 with rng := fun n => c0.rng (n + 1) }) :=
  claim_C9 ['Ⅻ', '²'] c0 (by decide)

/-- C3: Threshold fallback — for a non-all-numeric word, a signature
bucket with 15 or fewer entries is never drawn from: the result is the
fall-through (`lengthFallback`); and if every bucket the by-length
lookup can return is also at most 15 entries (in particular if there is
none), the fall-through is exactly the synthetic generator. -/
theorem claim_C3 (word : Word) (c : Context) (ws : List Word)
    (hnum : word.all isNumericU = false)
    (hb : bmGet c.by_hyphenation (hyphSignature c.hyph word) = some ws)
    (hsmall : ws.length ≤ 15) :
    mutilate_word word c = lengthFallback word c ∧
    ((∀ wsl, bmGet c.by_length word.length = some wsl → wsl.length ≤ 15) →
      lengthFallback word c =
        ((synth word.length c.rng).1,
         { c with rng := (synth word.length c.rng).2 })) := by
  constructor
  · rw [mutilate_word_sig word c hnum, hb,
      bucketDraw_small _ _ (by simp only [MINIMUM_WORD_COUNT]; omega)]
  · intro hlen
    unfold lengthFallback
    cases hg : bmGet c.by_length word.length with
    | none =>
      cases hsy : synth word.length c.rng with
      | mk o r2 => simp [bucketDraw]
    | some wsl =>
      have hs2 := hlen wsl hg
      rw [bucketDraw_small _ _ (by simp only [MINIMUM_WORD_COUNT]; omega)]

theorem claim_C3_witness :
    mutilate_word ['b'] cSmall = lengthFallback ['b'] cSmall ∧
    ((∀ wsl, bmGet cSmall.by_length (['b'] : Word).length = some wsl →
        wsl.length ≤ 15) →
      lengthFallback ['b'] cSmall =
        ((synth (['b'] : Word).length cSmall.rng).1,
         { cSmall with rng := (synth (['b'] : Word).length cSmall.rng).2 })) :=
  claim_C3 ['b'] cSmall [['q']] (by decide) (by decide) (by decide)

/-- C5 counterexample: the word `²²` (two superscript-two characters) is
not made of decimal digits, yet with an empty wordlist the program does
not replace it by 2 letters of the 52-letter alphabet: the whole word
collapses to the single digit `0`, because the branch test is Unicode
`is_numeric`, not "all digits".  This refutes the claim as stated. -/
theorem claim_C5_cx :
    (['²', '²'] : Word).all Char.isDigit = false ∧
    c0.by_length = [] ∧ c0.by_hyphenation = [] ∧
    (['²', '²'] : Word).length = 2 ∧
    (mutilate_word ['²', '²'] c0).1 = ['0'] ∧
    '0' ∉ CHARSET_TEXT := by
  refine ⟨by decide, rfl, rfl, by decide, by decide, by decide⟩

/-- C5 (amended): with an empty wordlist, every word that is not
all-numeric (the code's branch test — Unicode `is_numeric` — rather
than "all decimal digits") of character length n is replaced by exactly
n characters drawn from the 52-letter upper+lowercase ASCII alphabet,
regardless of the original characters' case or script. -/
theorem claim_C5 (word : Word) (c : Context)
    (hlen : c.by_length = []) (hhyph : c.by_hyphenation = [])
    (hnum : word.all isNumericU = false) :
    (mutilate_word word c).1.length = word.length ∧
    ∀ ch ∈ (mutilate_word word c).1, ch ∈ CHARSET_TEXT := by
  have hstep : mutilate_word word c =
      ((synth word.length c.rng).1,
       { c with rng := (synth word.length c.rng).2 }) := by
    rw [mutilate_word_sig word c hnum]
    unfold lengthFallback
    rw [hhyph, hlen]
    have h1 : bmGet ([] : List (List Nat × List Word))
        (hyphSignature c.hyph word) = none := rfl
    have h2 : bmGet ([] : List (Nat × List Word)) word.length = none := rfl
    rw [h1, h2]
    cases hsy : synth word.length c.rng with
    | mk o r2 => simp [bucketDraw]
  rw [hstep]
  exact ⟨synth_length word.length c.rng, synth_mem word.length c.rng⟩

theorem claim_C5_witness :
    (mutilate_word ['é', 'b'] c0).1.length = (['é', 'b'] : Word).length ∧
    ∀ ch ∈ (mutilate_word ['é', 'b'] c0).1, ch ∈ CHARSET_TEXT :=
  claim_C5 ['é', 'b'] c0 rfl rfl (by decide)

/-- C7: Diagnostics abort — whenever the parser returns a non-empty
diagnostics list, the program performs no mutilation and emits no output
bytes at all (`runMain` yields `none`, the no-output outcome for both
the stdout and the in-place path). -/
theorem claim_C7 (rawLang : Word → Option Word) (doc : SyntaxNode)
    (errors : List Word) (c : Context) (h : errors ≠ []) :
    runMain rawLang doc errors c = none := by
  unfold runMain
  rw [if_neg]
  intro he
  exact h (List.isEmpty_iff.mp he)

theorem claim_C7_witness :
    runMain noLang (SyntaxNode.node .text ['x'] []) [['e']] c0 = none :=
  claim_C7 noLang (SyntaxNode.node .text ['x'] []) [['e']] c0 (by decide)

/-- C8: Seed determinism — two runs on the same document and diagnostics
whose contexts agree on every field (same generator stream, i.e. same
seed; same aggressive flag, hyphenator and wordlist indices) produce
byte-identical output.  The embedding is a pure function of exactly
these inputs, so equal inputs give equal output streams. -/
theorem claim_C8 (rawLang : Word → Option Word) (doc : SyntaxNode)
    (errors : List Word) (c1 c2 : Context)
    (hr : c1.rng = c2.rng) (ha : c1.aggressive = c2.aggressive)
    (hh : c1.hyph = c2.hyph) (hl : c1.by_length = c2.by_length)
    (hs : c1.by_hyphenation = c2.by_hyphenation) :
    runMain rawLang doc errors c1 = runMain rawLang doc errors c2 := by
  have he : c1 = c2 := by
    obtain ⟨r1, a1, h1, l1, s1⟩ := c1
    obtain ⟨r2, a2, h2, l2, s2⟩ := c2
    simp only [Context.mk.injEq]
    exact ⟨hr, ha, hh, hl, hs⟩
  rw [he]

theorem claim_C8_witness :
    runMain noLang (SyntaxNode.node .text ['h'] []) [] c0 =
      runMain noLang (SyntaxNode.node .text ['h'] []) []
        (build_context rng0 false hyph0 []) :=
  claim_C8 noLang (SyntaxNode.node .text ['h'] []) []
    c0 (build_context rng0 false hyph0 []) rfl rfl rfl rfl rfl

/-! Facts about index construction, for C4. -/

theorem bmGet_cons [DecidableEq κ] (q : κ × List α) (m : List (κ × List α))
    (k : κ) : bmGet (q :: m) k = if q.1 = k then some q.2 else bmGet m k := by
  unfold bmGet
  rw [List.find?_cons]
  by_cases h : q.1 = k
  · simp [h]
  · simp [h]

theorem bmPush_keyed [DecidableEq κ] (f : α → κ) (v : α)
    (m : List (κ × List α))
    (hm : ∀ p ∈ m, ∀ w ∈ p.2, f w = p.1) :
    ∀ p ∈ bmPush m (f v) v, ∀ w ∈ p.2, f w = p.1 := by
  induction m with
  | nil =>
    intro p hp w hw
    rw [show bmPush ([] : List (κ × List α)) (f v) v = [(f v, [v])] from rfl] at hp
    simp only [List.mem_singleton] at hp
    rw [hp] at hw ⊢
    simp only [List.mem_singleton] at hw
    rw [hw]
  | cons q rest ih =>
    intro p hp w hw
    rw [show bmPush (q :: rest) (f v) v =
        if q.1 = f v then (q.1, q.2 ++ [v]) :: rest
        else q :: bmPush rest (f v) v from rfl] at hp
    by_cases hq : q.1 = f v
    · rw [if_pos hq] at hp
      rcases List.mem_cons.mp hp with h1 | h1
      · rw [h1] at hw ⊢
        rcases List.mem_append.mp hw with h2 | h2
        · exact hm q (by simp) w h2
        · simp only [List.mem_singleton] at h2
          rw [h2, hq]
      · exact hm p (by simp [h1]) w hw
    · rw [if_neg hq] at hp
      rcases List.mem_cons.mp hp with h1 | h1
      · rw [h1] at hw
        rw [h1]
        exact hm q (by simp) w hw
      · exact ih (fun p' hp' => hm p' (by simp [hp'])) p h1 w hw

theorem buildIndex_keyed (hyph : Word → List Word) (wl : List Word) :
    ∀ p ∈ (buildIndex hyph wl).2, ∀ w ∈ p.2, hyphSignature hyph w = p.1 := by
  have hgo : ∀ (wl' : List Word)
      (acc : List (Nat × List Word) × List (List Nat × List Word)),
      (∀ p ∈ acc.2, ∀ w ∈ p.2, hyphSignature hyph w = p.1) →
      ∀ p ∈ (List.foldl (fun acc word =>
          (bmPush acc.1 word.length word,
           bmPush acc.2 (hyphSignature hyph word) word)) acc wl').2,
        ∀ w ∈ p.2, hyphSignature hyph w = p.1 := by
    intro wl'
    induction wl' with
    | nil =>
      intro acc hacc
      simpa using hacc
    | cons x rest ih =>
      intro acc hacc
      simp only [List.foldl_cons]
      exact ih _ (bmPush_keyed (hyphSignature hyph) x acc.2 hacc)
  exact hgo wl ([], []) (by simp)

/-- C4: Signature-bucket invariant and consistency — every word in the
by-signature index built by `build_context`'s loop sits in the bucket
keyed by its own hyphenation signature (the index is an immutable value
after construction, so bucket membership never changes); consequently,
whenever a replacement is drawn from a word's signature bucket (bucket
size at least `MINIMUM_WORD_COUNT`), the replacement's hyphenation
signature under the active language equals the original word's
signature. -/
theorem claim_C4 (hyph : Word → List Word) (wl : List Word) :
    (∀ p ∈ (buildIndex hyph wl).2, ∀ w ∈ p.2, hyphSignature hyph w = p.1) ∧
    (∀ (c : Context) (word : Word) (ws : List Word),
      c.hyph = hyph → c.by_hyphenation = (buildIndex hyph wl).2 →
      word.all isNumericU = false →
      bmGet c.by_hyphenation (hyphSignature hyph word) = some ws →
      MINIMUM_WORD_COUNT ≤ ws.length →
      hyphSignature hyph (mutilate_word word c).1 =
        hyphSignature hyph word) := by
  refine ⟨buildIndex_keyed hyph wl, ?_⟩
  intro c word ws hch hcb hnum hget hlen
  obtain ⟨w, r', hbd, hmem⟩ := bucketDraw_of_le ws c.rng hlen
  rw [mutilate_word_sig word c hnum, hch, hget, hbd]
  have hpair := bmGet_mem _ _ _ (hcb ▸ hget)
  exact buildIndex_keyed hyph wl _ hpair w hmem

theorem claim_C4_witness :
    hyphSignature hyph0 ((mutilate_word ['x', 'y'] c16).1) =
      hyphSignature hyph0 ['x', 'y'] :=
  (claim_C4 hyph0 wl16).2 c16 ['x', 'y'] wl16 rfl rfl (by decide) (by decide)
    (by decide)



/-! Byte-slicing success lemmas, for C10. -/

theorem byteLen_append (l t : Word) : byteLen (l ++ t) = byteLen l + byteLen t := by
  unfold byteLen
  rw [List.map_append, List.sum_append]

theorem byteSplitAt_byteLen (l t : Word) :
    byteSplitAt (byteLen l) (l ++ t) = some (l, t) := by
  induction l with
  | nil => simp [byteLen, byteSplitAt]
  | cons ch l2 ih =>
    have hpos : 0 < ch.utf8Size := Char.utf8Size_pos ch
    have hb : byteLen (ch :: l2) = ch.utf8Size + byteLen l2 := by
      unfold byteLen
      rw [List.map_cons, List.sum_cons]
    obtain ⟨m, hm⟩ : ∃ m, byteLen (ch :: l2) = m + 1 :=
      ⟨byteLen (ch :: l2) - 1, by omega⟩
    rw [hm, show (ch :: l2) ++ t = ch :: (l2 ++ t) from rfl, byteSplitAt,
      if_pos (by omega)]
    have h2 : m + 1 - ch.utf8Size = byteLen l2 := by omega
    rw [h2, ih]
    rfl

theorem sliceBytes_delims (d1 mid d2 : Word) :
    sliceBytes (byteLen d1) (byteLen (d1 ++ (mid ++ d2)) - byteLen d2)
      (d1 ++ (mid ++ d2)) = some mid := by
  unfold sliceBytes
  rw [if_neg (by rw [byteLen_append, byteLen_append]; omega),
    byteSplitAt_byteLen]
  have hb : byteLen (d1 ++ (mid ++ d2)) - byteLen d2 - byteLen d1
      = byteLen mid := by
    rw [byteLen_append, byteLen_append]
    omega
  show (byteSplitAt (byteLen (d1 ++ (mid ++ d2)) - byteLen d2 - byteLen d1)
    (mid ++ d2)).map (fun q => q.1) = some mid
  rw [hb, byteSplitAt_byteLen]
  rfl

theorem removeTrail_append (l suf : Word) : removeTrail (l ++ suf) suf = some l := by
  unfold removeTrail
  have h1 : (l ++ suf).length - suf.length = l.length := by
    rw [List.length_append]
    omega
  rw [h1, List.drop_left, if_pos rfl, List.take_left]

theorem removeLead_append (d rest : Word) : removeLead (d ++ rest) d = some rest := by
  unfold removeLead
  rw [List.take_left, if_pos rfl, List.drop_left]

/-! Echoing a node verbatim writes exactly its leaves' text, for C6. -/

mutual

theorem write_node_eq_leaves :
    ∀ n : SyntaxNode, write_node n = (leaves n).flatten
  | .node k t [] => by simp [write_node, leaves]
  | .node k t (n :: rest) => by
    rw [show write_node (.node k t (n :: rest)) = writeNodeList (n :: rest)
        from rfl,
      show leaves (.node k t (n :: rest)) = leavesList (n :: rest) from rfl]
    exact writeNodeList_eq_leavesList (n :: rest)

theorem writeNodeList_eq_leavesList :
    ∀ l : List SyntaxNode, writeNodeList l = (leavesList l).flatten
  | [] => by simp [writeNodeList, leavesList]
  | n :: rest => by
    rw [show writeNodeList (n :: rest) = write_node n ++ writeNodeList rest
        from rfl,
      show leavesList (n :: rest) = leaves n ++ leavesList rest from rfl,
      List.flatten_append, write_node_eq_leaves n,
      writeNodeList_eq_leavesList rest]

end

/-- C6: Module directive echo — for every node of kind module include or
module import, `mutilate` emits exactly the node's input text (the
concatenation of its leaves' texts, in order) and leaves the context —
in particular the generator — untouched; the result mentions neither
the aggressive flag nor the wordlist, so it is independent of both. -/
theorem claim_C6 (rawLang : Word → Option Word) (n : SyntaxNode) (c : Context)
    (h : n.kind = .moduleInclude ∨ n.kind = .moduleImport) :
    mutilate rawLang n c = some ((leaves n).flatten, c) := by
  obtain ⟨k, t, cs⟩ := n
  simp only [SyntaxNode.kind] at h
  rcases h with h | h
  · subst h
    rw [show mutilate rawLang (.node .moduleInclude t cs) c =
        some (write_node (.node .moduleInclude t cs), c) from rfl,
      write_node_eq_leaves]
  · subst h
    rw [show mutilate rawLang (.node .moduleImport t cs) c =
        some (write_node (.node .moduleImport t cs), c) from rfl,
      write_node_eq_leaves]

theorem claim_C6_witness :
    mutilate noLang
      (SyntaxNode.node .moduleImport []
        [SyntaxNode.node .other ['i', 'm', 'p'] [],
         SyntaxNode.node .str ['s'] []]) c0 =
      some ((leaves (SyntaxNode.node .moduleImport []
        [SyntaxNode.node .other ['i', 'm', 'p'] [],
         SyntaxNode.node .str ['s'] []])).flatten, c0) :=
  claim_C6 noLang _ c0 (Or.inr rfl)


/-! No-panic lemmas for the tree walk, for C10. -/

theorem lineComment_slice (rest : Word) :
    sliceFrom 2 ('/' :: '/' :: rest) = some rest := by
  have h := byteSplitAt_byteLen ['/', '/'] rest
  rw [show byteLen ['/', '/'] = 2 from by decide] at h
  unfold sliceFrom
  rw [show ('/' :: '/' :: rest : Word) = ['/', '/'] ++ rest from rfl, h]
  rfl

theorem blockComment_slice (mid : Word) :
    sliceBytes 2 (byteLen ('/' :: '*' :: (mid ++ ['*', '/'])) - 2)
      ('/' :: '*' :: (mid ++ ['*', '/'])) = some mid := by
  have h := sliceBytes_delims ['/', '*'] mid ['*', '/']
  rw [show byteLen ['/', '*'] = 2 from by decide,
    show byteLen ['*', '/'] = 2 from by decide] at h
  exact h

theorem str_slice (mid : Word) :
    sliceBytes 1 (byteLen ('"' :: (mid ++ ['"'])) - 1) ('"' :: (mid ++ ['"']))
      = some mid := by
  have h := sliceBytes_delims ['"'] mid ['"']
  rw [show byteLen ['"'] = 1 from by decide] at h
  exact h

theorem raw_isSome (rawLang : Word → Option Word) (t : Word)
    (cs : List SyntaxNode) (c : Context) (hshape : RawShape rawLang t) :
    (mutilate rawLang (.node .raw t cs) c).isSome = true := by
  obtain ⟨mid, hdecomp, hhead, hne, hlang⟩ := hshape
  cases hmid : mid with
  | nil =>
    subst hmid
    have hpre : t.takeWhile (fun ch => ch = backtick) = [] := by
      by_contra hni
      exact hne hni rfl
    have ht : t = [] := by
      rw [hdecomp, hpre]
      rfl
    subst ht
    simp only [mutilate]
    cases hr : rawLang ([] : Word) with
    | none =>
      cases hmt : mutilate_text [] c with
      | mk o c2 => simp [removeTrail, hr, hmt]
    | some lang =>
      obtain ⟨rest2, hr2⟩ := hlang lang hr
      have hl : lang = [] := (List.append_eq_nil.mp hr2.symm).1
      subst hl
      cases hmt : mutilate_text [] c with
      | mk o c2 => simp [removeTrail, removeLead, hr, hmt]
  | cons m0 mid' =>
    subst hmid
    have hm0 : (decide (m0 = backtick)) = false := by
      simp only [List.head?] at hhead
      simp only [decide_eq_false_iff_not]
      intro e
      exact hhead (by rw [e])
    have hall := fun x
        (hx : x ∈ t.takeWhile (fun ch => decide (ch = backtick))) =>
      List.mem_takeWhile_imp hx
    have hdrop : t.dropWhile (fun ch => decide (ch = backtick)) =
        (m0 :: mid') ++ t.takeWhile (fun ch => decide (ch = backtick)) := by
      conv_lhs => rw [hdecomp]
      rw [List.append_assoc,
        dropWhile_append_of_all _ _ _ hall]
      rw [show ((m0 :: mid') ++ t.takeWhile (fun ch => decide (ch = backtick)))
          = m0 :: (mid' ++ t.takeWhile (fun ch => decide (ch = backtick)))
          from rfl,
        List.dropWhile_cons, hm0]
      simp
    have htake : t.takeWhile (fun ch => decide (ch = backtick)) =
        t.takeWhile (fun ch => decide (ch = backtick)) := rfl
    simp only [mutilate]
    rw [hdrop, removeTrail_append]
    cases hr : rawLang t with
    | none => simp
    | some lang =>
      obtain ⟨rest2, hr2⟩ := hlang lang hr
      rw [hr2]
      simp [removeLead_append]

theorem walk_isSome (rawLang : Word → Option Word) : ∀ N : Nat,
    (∀ (n : SyntaxNode) (c : Context), nodeSize n ≤ N →
      AllShapeOk rawLang n → (mutilate rawLang n c).isSome = true) ∧
    (∀ (l : List SyntaxNode) (c : Context), forestSize l ≤ N →
      AllShapeOkList rawLang l → (mutilateList rawLang l c).isSome = true) := by
  intro N
  induction N with
  | zero =>
    constructor
    · intro n c hsz h
      obtain ⟨k, t, cs⟩ := n
      rw [nodeSize] at hsz
      omega
    · intro l c hsz hl
      cases l with
      | nil => rfl
      | cons n rest =>
        rw [forestSize] at hsz
        omega
  | succ N ih =>
    obtain ⟨ihn, ihl⟩ := ih
    constructor
    · intro n c hsz h
      obtain ⟨k, t, cs⟩ := n
      obtain ⟨hs, hcs⟩ := h
      obtain ⟨h1, h2, h3, h4⟩ := hs
      have hcs_sz : forestSize cs ≤ N := by
        rw [nodeSize] at hsz
        omega
      cases k with
      | text => rfl
      | lineComment =>
        obtain ⟨rest, ht⟩ := h1 rfl
        simp only [SyntaxNode.text] at ht
        subst ht
        simp only [mutilate]
        rw [lineComment_slice]
        simp
      | blockComment =>
        obtain ⟨mid, ht⟩ := h2 rfl
        simp only [SyntaxNode.text] at ht
        subst ht
        simp only [mutilate]
        rw [blockComment_slice]
        simp
      | str =>
        cases cs with
        | nil =>
          cases hag : c.aggressive with
          | true =>
            obtain ⟨mid, ht⟩ := h3 rfl
            simp only [SyntaxNode.text] at ht
            subst ht
            rw [show mutilate rawLang
                  (.node .str ('"' :: (mid ++ ['"'])) []) c =
                (if c.aggressive then
                  match sliceBytes 1 (byteLen ('"' :: (mid ++ ['"'])) - 1)
                      ('"' :: (mid ++ ['"'])) with
                  | none => none
                  | some content =>
                    match mutilate_text content c with
                    | (o, c') => some (['"'] ++ o ++ ['"'], c')
                else some ('"' :: (mid ++ ['"']), c)) from rfl,
              if_pos hag, str_slice]
            simp
          | false =>
            rw [show mutilate rawLang (.node .str t []) c =
                (if c.aggressive then
                  match sliceBytes 1 (byteLen t - 1) t with
                  | none => none
                  | some content =>
                    match mutilate_text content c with
                    | (o, c') => some (['"'] ++ o ++ ['"'], c')
                else some (t, c)) from rfl,
              if_neg (by simp [hag])]
            rfl
        | cons n1 rest =>
          cases hag : c.aggressive with
          | true =>
            obtain ⟨mid, ht⟩ := h3 rfl
            simp only [SyntaxNode.text] at ht
            subst ht
            rw [show mutilate rawLang
                  (.node .str ('"' :: (mid ++ ['"'])) (n1 :: rest)) c =
                (if c.aggressive then
                  match sliceBytes 1 (byteLen ('"' :: (mid ++ ['"'])) - 1)
                      ('"' :: (mid ++ ['"'])) with
                  | none => none
                  | some content =>
                    match mutilate_text content c with
                    | (o, c') => some (['"'] ++ o ++ ['"'], c')
                else mutilateList rawLang (n1 :: rest) c) from rfl,
              if_pos hag, str_slice]
            simp
          | false =>
            rw [show mutilate rawLang (.node .str t (n1 :: rest)) c =
                (if c.aggressive then
                  match sliceBytes 1 (byteLen t - 1) t with
                  | none => none
                  | some content =>
                    match mutilate_text content c with
                    | (o, c') => some (['"'] ++ o ++ ['"'], c')
                else mutilateList rawLang (n1 :: rest) c) from rfl,
              if_neg (by simp [hag])]
            exact ihl (n1 :: rest) c hcs_sz hcs
      | raw => exact raw_isSome rawLang t cs c (h4 rfl)
      | link => rfl
      | moduleInclude => rfl
      | moduleImport => rfl
      | other =>
        cases cs with
        | nil => rfl
        | cons n1 rest => exact ihl (n1 :: rest) c hcs_sz hcs
    · intro l c hsz hl
      cases l with
      | nil => rfl
      | cons n rest =>
        obtain ⟨hn, hrest⟩ := hl
        have hn_sz : nodeSize n ≤ N := by
          rw [forestSize] at hsz
          omega
        have hrest_sz : forestSize rest ≤ N := by
          rw [forestSize] at hsz
          omega
        cases hm : mutilate rawLang n c with
        | none =>
          have hcontra := ihn n c hn_sz hn
          rw [hm] at hcontra
          simp at hcontra
        | some p =>
          obtain ⟨o, c2⟩ := p
          cases hm2 : mutilateList rawLang rest c2 with
          | none =>
            have hcontra := ihl rest c2 hrest_sz hrest
            rw [hm2] at hcontra
            simp at hcontra
          | some q =>
            simp [mutilateList, hm, hm2]

/-- C10: the byte-slicing and unwrap operations of the tree walk never
panic — `mutilate` returns an actual output — provided each node's text
has the shape its kind implies: a line comment starts with `//`; a block
comment is `/*`...`*/` (at least 4 bytes); a string is quote-delimited;
a raw node starts and ends with its maximal backtick run, with any
reported language tag immediately after the opening run.  Kinds without
slicing need no condition. -/
theorem claim_C10 (rawLang : Word → Option Word) (n : SyntaxNode)
    (c : Context) (h : AllShapeOk rawLang n) :
    (mutilate rawLang n c).isSome = true :=
  (walk_isSome rawLang (nodeSize n)).1 n c le_rfl h

theorem claim_C10_witness :
    (mutilate noLang
      (SyntaxNode.node .lineComment ['/', '/', 'a'] []) c0).isSome = true :=
  claim_C10 noLang _ c0 (by
    refine ⟨⟨fun _ => ⟨['a'], rfl⟩, fun hk => ?_, fun hk => ?_,
      fun hk => ?_⟩, trivial⟩ <;> simp [SyntaxNode.kind] at hk)



theorem length_takeWhile_le (p : α → Bool) (l : List α) :
    (l.takeWhile p).length ≤ l.length := by
  induction l with
  | nil => simp
  | cons a t ih =>
    by_cases h : p a
    · simp only [List.takeWhile_cons, h, if_true, List.length_cons]
      omega
    · simp [List.takeWhile_cons, h]

theorem length_dropWhile_le' (p : α → Bool) (l : List α) :
    (l.dropWhile p).length ≤ l.length := by
  induction l with
  | nil => simp
  | cons a t ih =>
    by_cases h : p a
    · simp only [List.dropWhile_cons, h, if_true, List.length_cons]
      omega
    · simp [List.dropWhile_cons, h]

theorem drop_takeWhile_length (p : α → Bool) (l : List α) :
    l.drop (l.takeWhile p).length = l.dropWhile p := by
  have h := List.takeWhile_append_dropWhile (p := p) (l := l)
  calc l.drop (l.takeWhile p).length
      = (l.takeWhile p ++ l.dropWhile p).drop (l.takeWhile p).length := by
        rw [h]
    _ = l.dropWhile p := List.drop_left _ _

set_option maxHeartbeats 1000000 in
theorem mutilateTextGo_succ (f : Nat) (text : Word) (c : Context) :
    mutilateTextGo (f + 1) text c =
      (match (text.dropWhile isSep).takeWhile isAlphanumericU with
      | [] => (text, c)
      | w :: tl =>
        let p := mutilate_word (w :: tl) c
        let q := mutilateTextGo f
          ((text.dropWhile isSep).drop (w :: tl).length) p.2
        (text.takeWhile isSep ++ p.1 ++ q.1, q.2)) := by
  rw [mutilateTextGo]

set_option maxHeartbeats 1000000 in
theorem sepRunsGo_succ (f : Nat) (text : Word) :
    sepRunsGo (f + 1) text =
      (match (text.dropWhile isSep).takeWhile isAlphanumericU with
      | [] => [text.takeWhile isSep]
      | w :: tl =>
        text.takeWhile isSep ::
          sepRunsGo f ((text.dropWhile isSep).drop (w :: tl).length)) := by
  rw [sepRunsGo]

theorem word_run_length_le (text : Word) (w : Char) (tl : List Char)
    (hword : (text.dropWhile isSep).takeWhile isAlphanumericU = w :: tl) :
    ((text.dropWhile isSep).drop (w :: tl).length).length + 1 ≤ text.length := by
  have hword_le : (w :: tl).length ≤ (text.dropWhile isSep).length := by
    rw [← hword]
    exact length_takeWhile_le _ _
  have hrest : (text.dropWhile isSep).length ≤ text.length :=
    length_dropWhile_le' _ _
  rw [List.length_drop]
  simp only [List.length_cons] at hword_le ⊢
  omega

theorem mutilateTextGo_congr : ∀ (f1 f2 : Nat) (text : Word) (c : Context),
    text.length ≤ f1 → text.length ≤ f2 →
    mutilateTextGo f1 text c = mutilateTextGo f2 text c := by
  intro f1
  induction f1 with
  | zero =>
    intro f2 text c h1 h2
    have ht : text = [] := List.length_eq_zero.mp (Nat.le_zero.mp h1)
    subst ht
    cases f2 with
    | zero => rfl
    | succ f2 =>
      rw [mutilateTextGo_succ]
      rfl
  | succ f1 ih =>
    intro f2 text c h1 h2
    cases f2 with
    | zero =>
      have ht : text = [] := List.length_eq_zero.mp (Nat.le_zero.mp h2)
      subst ht
      rw [mutilateTextGo_succ]
      rfl
    | succ f2 =>
      rw [mutilateTextGo_succ, mutilateTextGo_succ]
      cases hword : (text.dropWhile isSep).takeWhile isAlphanumericU with
      | nil => rfl
      | cons w tl =>
        dsimp only
        have hle := word_run_length_le text w tl hword
        rw [ih f2 _ _ (by omega) (by omega)]

theorem sepRunsGo_congr : ∀ (f1 f2 : Nat) (text : Word),
    text.length ≤ f1 → text.length ≤ f2 →
    sepRunsGo f1 text = sepRunsGo f2 text := by
  intro f1
  induction f1 with
  | zero =>
    intro f2 text h1 h2
    have ht : text = [] := List.length_eq_zero.mp (Nat.le_zero.mp h1)
    subst ht
    cases f2 with
    | zero => rfl
    | succ f2 =>
      rw [sepRunsGo_succ]
      rfl
  | succ f1 ih =>
    intro f2 text h1 h2
    cases f2 with
    | zero =>
      have ht : text = [] := List.length_eq_zero.mp (Nat.le_zero.mp h2)
      subst ht
      rw [sepRunsGo_succ]
      rfl
    | succ f2 =>
      rw [sepRunsGo_succ, sepRunsGo_succ]
      cases hword : (text.dropWhile isSep).takeWhile isAlphanumericU with
      | nil => rfl
      | cons w tl =>
        dsimp only
        have hle := word_run_length_le text w tl hword
        rw [ih f2 _ (by omega) (by omega)]


theorem mutilate_text_base (text : Word) (c : Context)
    (hword : (text.dropWhile isSep).takeWhile isAlphanumericU = []) :
    mutilate_text text c = (text, c) := by
  unfold mutilate_text
  cases hn : text.length with
  | zero => rfl
  | succ n =>
    rw [mutilateTextGo_succ, hword]

theorem mutilate_text_step (text : Word) (c : Context) (w : Char)
    (tl : List Char)
    (hword : (text.dropWhile isSep).takeWhile isAlphanumericU = w :: tl) :
    mutilate_text text c =
      (text.takeWhile isSep ++ (mutilate_word (w :: tl) c).1 ++
        (mutilate_text ((text.dropWhile isSep).drop (w :: tl).length)
          (mutilate_word (w :: tl) c).2).1,
       (mutilate_text ((text.dropWhile isSep).drop (w :: tl).length)
         (mutilate_word (w :: tl) c).2).2) := by
  have hle := word_run_length_le text w tl hword
  unfold mutilate_text
  obtain ⟨n, hn⟩ : ∃ n, text.length = n + 1 := ⟨text.length - 1, by omega⟩
  rw [hn, mutilateTextGo_succ, hword]
  dsimp only
  rw [mutilateTextGo_congr n
    ((text.dropWhile isSep).drop (w :: tl).length).length _ _
    (by omega) le_rfl]

theorem sepRuns_base (text : Word)
    (hword : (text.dropWhile isSep).takeWhile isAlphanumericU = []) :
    sepRuns text = [text.takeWhile isSep] := by
  unfold sepRuns
  cases hn : text.length with
  | zero =>
    have ht : text = [] := List.length_eq_zero.mp hn
    subst ht
    rfl
  | succ n => rw [sepRunsGo_succ, hword]

theorem sepRuns_step (text : Word) (w : Char) (tl : List Char)
    (hword : (text.dropWhile isSep).takeWhile isAlphanumericU = w :: tl) :
    sepRuns text = text.takeWhile isSep ::
      sepRuns ((text.dropWhile isSep).drop (w :: tl).length) := by
  have hle := word_run_length_le text w tl hword
  unfold sepRuns
  obtain ⟨n, hn⟩ : ∃ n, text.length = n + 1 := ⟨text.length - 1, by omega⟩
  rw [hn, sepRunsGo_succ, hword]
  dsimp only
  rw [sepRunsGo_congr n
    ((text.dropWhile isSep).drop (w :: tl).length).length _
    (by omega) le_rfl]

theorem head?_dropWhile_false (p : α → Bool) (l : List α) (a : α)
    (h : (l.dropWhile p).head? = some a) : p a = false := by
  have hne : l.dropWhile p ≠ [] := by
    intro he
    rw [he] at h
    simp at h
  have h2 := List.head_dropWhile_not p l hne
  have h3 : (l.dropWhile p).head hne = a := by
    have h4 := List.head?_eq_head (l := l.dropWhile p) hne
    rw [h4] at h
    simpa using h
  rw [← h3]
  simpa using h2

theorem sepRuns_append (ws mw t2 : Word)
    (hws : ∀ x ∈ ws, isSep x = true)
    (hmw : mw ≠ [])
    (hmwa : ∀ x ∈ mw, isAlphanumericU x = true)
    (ht2 : ∀ a, t2.head? = some a → isSep a = true) :
    sepRuns (ws ++ mw ++ t2) = ws :: sepRuns t2 := by
  obtain ⟨m0, mtl, rfl⟩ : ∃ m0 mtl, mw = m0 :: mtl := by
    cases mw with
    | nil => exact absurd rfl hmw
    | cons a b => exact ⟨a, b, rfl⟩
  have hm0 : isSep m0 = false := by
    have h := hmwa m0 (by simp)
    unfold isSep
    rw [h]
    rfl
  have htw : (ws ++ (m0 :: mtl) ++ t2).takeWhile isSep = ws := by
    rw [List.append_assoc, takeWhile_append_of_all _ _ _ hws,
      show ((m0 :: mtl) ++ t2) = m0 :: (mtl ++ t2) from rfl,
      List.takeWhile_cons, hm0]
    simp
  have hdw : (ws ++ (m0 :: mtl) ++ t2).dropWhile isSep = (m0 :: mtl) ++ t2 := by
    rw [List.append_assoc, dropWhile_append_of_all _ _ _ hws,
      show ((m0 :: mtl) ++ t2) = m0 :: (mtl ++ t2) from rfl,
      List.dropWhile_cons, hm0]
    simp
  have ht2a : ∀ a, t2.head? = some a → isAlphanumericU a = false := by
    intro a ha
    have h := ht2 a ha
    unfold isSep at h
    simpa using h
  have htw2 : ((m0 :: mtl) ++ t2).takeWhile isAlphanumericU = m0 :: mtl := by
    rw [takeWhile_append_of_all _ _ _ hmwa,
      takeWhile_eq_nil_of_head _ _ ht2a]
    simp
  have hword : ((ws ++ (m0 :: mtl) ++ t2).dropWhile isSep).takeWhile
      isAlphanumericU = m0 :: mtl := by
    rw [hdw, htw2]
  rw [sepRuns_step _ _ _ hword, htw, hdw, List.drop_left]

theorem mutilate_text_headSep (text : Word) (c : Context)
    (hh : ∀ a, text.head? = some a → isSep a = true) :
    ∀ a, (mutilate_text text c).1.head? = some a → isSep a = true := by
  cases hword : (text.dropWhile isSep).takeWhile isAlphanumericU with
  | nil =>
    rw [mutilate_text_base _ _ hword]
    exact hh
  | cons w tl =>
    rw [mutilate_text_step _ _ _ _ hword]
    have htne : text ≠ [] := by
      intro he
      rw [he] at hword
      simp at hword
    obtain ⟨t0, trest, rfl⟩ : ∃ t0 trest, text = t0 :: trest := by
      cases text with
      | nil => exact absurd rfl htne
      | cons a b => exact ⟨a, b, rfl⟩
    have h0 : isSep t0 = true := hh t0 rfl
    dsimp only
    intro a ha
    rw [List.takeWhile_cons, h0] at ha
    simp only [if_true, List.cons_append, List.head?_cons,
      Option.some.injEq] at ha
    rw [← ha]
    exact h0

theorem CleanBuckets_mutilate_word (word : Word) (c : Context)
    (hc : CleanBuckets c) : CleanBuckets (mutilate_word word c).2 := by
  obtain ⟨f1, f2, f3, f4⟩ := mutilate_word_fields word c
  constructor
  · rw [f4]
    exact hc.1
  · rw [f3]
    exact hc.2

theorem sepRuns_mutilate_text_main : ∀ (n : Nat) (text : Word) (c : Context),
    text.length ≤ n → CleanBuckets c →
    sepRuns (mutilate_text text c).1 = sepRuns text := by
  intro n
  induction n with
  | zero =>
    intro text c h1 hc
    have ht : text = [] := List.length_eq_zero.mp (Nat.le_zero.mp h1)
    subst ht
    rfl
  | succ n ih =>
    intro text c h1 hc
    cases hword : (text.dropWhile isSep).takeWhile isAlphanumericU with
    | nil => rw [mutilate_text_base _ _ hword]
    | cons w tl =>
      have hle := word_run_length_le text w tl hword
      rw [mutilate_text_step _ _ _ _ hword]
      dsimp only
      have hwne : (w :: tl : Word) ≠ [] := by simp
      obtain ⟨hmne, hma⟩ := mutilate_word_clean (w :: tl) c hc hwne
      have hc2 := CleanBuckets_mutilate_word (w :: tl) c hc
      have hrsep : ∀ a,
          ((text.dropWhile isSep).drop (w :: tl).length).head? = some a →
          isSep a = true := by
        intro a ha
        rw [show ((w :: tl : Word)).length =
            ((text.dropWhile isSep).takeWhile isAlphanumericU).length
            from by rw [hword],
          drop_takeWhile_length] at ha
        have h := head?_dropWhile_false _ _ _ ha
        unfold isSep
        rw [h]
        rfl
      have hout := mutilate_text_headSep
        ((text.dropWhile isSep).drop (w :: tl).length)
        (mutilate_word (w :: tl) c).2 hrsep
      have hws : ∀ x ∈ text.takeWhile isSep, isSep x = true :=
        fun x hx => List.mem_takeWhile_imp hx
      have hmwa : ∀ x ∈ (mutilate_word (w :: tl) c).1,
          isAlphanumericU x = true :=
        fun x hx => List.all_eq_true.mp hma x hx
      rw [sepRuns_append _ _ _ hws hmne hmwa hout]
      rw [ih _ _ (by omega) hc2]
      rw [sepRuns_step _ _ _ hword]

/-- C1 counterexample: on input `12 a` with an empty wordlist, the
single separator run (one space) sits at byte offset 2 of the input but
at byte offset 1 of the output, because the all-digit word `12`
collapsed to the single digit `0`.  Byte positions of separator runs
are therefore not preserved, refuting the claim as stated. -/
theorem claim_C1_cx :
    (mutilate_text ['1', '2', ' ', 'a'] c0).1 = ['0', ' ', 'a'] ∧
    sepRunsPos ['1', '2', ' ', 'a'] = [(2, [' '])] ∧
    sepRunsPos ['0', ' ', 'a'] = [(1, [' '])] :=
  ⟨by decide, by decide, by decide⟩

/-- C1 (amended): Shape preservation — for every input span, the
sequence of separator runs of the output equals that of the input
verbatim (hence each run's contents and byte length are preserved, and
only word-run contents differ), provided every wordlist word is
non-empty and fully alphanumeric; the byte positions of the runs may
shift, since a word's replacement can have a different byte length
(digit collapse, synthetic ASCII letters). -/
theorem claim_C1 (text : Word) (c : Context) (hc : CleanBuckets c) :
    sepRuns (mutilate_text text c).1 = sepRuns text ∧
    (sepRuns (mutilate_text text c).1).map byteLen =
      (sepRuns text).map byteLen := by
  have h := sepRuns_mutilate_text_main text.length text c le_rfl hc
  exact ⟨h, by rw [h]⟩

theorem claim_C1_witness :
    sepRuns (mutilate_text ['h', 'i', '!', ' ', '4', '2'] c0).1 =
      sepRuns ['h', 'i', '!', ' ', '4', '2'] ∧
    (sepRuns (mutilate_text ['h', 'i', '!', ' ', '4', '2'] c0).1).map byteLen =
      (sepRuns ['h', 'i', '!', ' ', '4', '2']).map byteLen :=
  claim_C1 ['h', 'i', '!', ' ', '4', '2'] c0
    ⟨fun p hp => absurd hp (List.not_mem_nil p),
     fun p hp => absurd hp (List.not_mem_nil p)⟩


end TypstMutilate
